import Mathlib

/-!
Shallow embedding of `src/tinyhist.c` (tinyhist - a 32-byte compact histogram
type for PostgreSQL) and proofs about the claims on its specification.

Modelling conventions:
* The struct `tinyhist_t { uint8 sample:4; uint8 unit:4; uint8 data[31]; }`
  is a record of two 4-bit counters (naturals carrying a proof `< 16`, since a
  4-bit unsigned bit-field can hold only 0..15 and all stores reduce mod 16)
  plus the 31-byte packed data region.  The data region is only ever accessed
  bit-by-bit through `byte = (offset+i)/8`, `bit = (offset+i)%8`, so it is
  modelled as a function from the absolute bit position `byte*8 + bit = offset+i`
  to `Bool`; positions `0..247` are the meaningful ones.
* Machine arithmetic: counters are `Nat`; wherever the C code can overflow a
  field (the 4-bit exponents, an n-bit bucket) the reduction `% 2^w` is explicit.
* The `double value` arguments are modelled as `Nat`: every comparison the code
  performs on them compares against integers, and IEEE doubles holding integers
  below 2^53 compare exactly like the integers themselves.
* The unbounded `while` loops whose termination depends on program invariants
  are given explicit fuel; lemmas below show the chosen fuel is never exhausted
  on the terminating executions (and claim C4 shows the range-growing loop
  genuinely diverges for large inputs, which the fuel-indexed family makes
  expressible as "no amount of fuel produces a result").
* `random()`-driven subsampling (`hist_sample`) is modelled by passing the
  sampling decision `keep : Bool` into the accumulate operation, as the spec
  itself demands an injectable randomness source.
-/

/-- Bit widths of the 16 buckets, `static int bucket_bits[]` in the source. -/
def bucket_bits (i : Nat) : Nat :=
  match i with
  | 0 => 8 | 1 => 9 | 2 => 10 | 3 => 11
  | 4 => 12 | 5 => 13 | 6 => 14 | 7 => 15
  | 8 => 16 | 9 => 17 | 10 => 18 | 11 => 19
  | 12 => 20 | 13 => 21 | 14 => 22 | 15 => 23
  | _ => 0

/-- Bit offsets of the 16 buckets, `static int bucket_offset[]` in the source. -/
def bucket_offset (i : Nat) : Nat :=
  match i with
  | 0 => 0 | 1 => 8 | 2 => 17 | 3 => 27
  | 4 => 38 | 5 => 50 | 6 => 63 | 7 => 77
  | 8 => 92 | 9 => 108 | 10 => 125 | 11 => 143
  | 12 => 162 | 13 => 182 | 14 => 203 | 15 => 225
  | _ => 248

/-- The `tinyhist_t` struct: two 4-bit fields and the packed bucket data,
the data region indexed by absolute bit position. -/
structure tinyhist_t where
  sample : Nat
  unit : Nat
  data : Nat → Bool
  sample_lt : sample < 16
  unit_lt : unit < 16

/-- The zero histogram produced by `palloc0`: both exponents 0, all data bits 0. -/
def zero_hist : tinyhist_t :=
  { sample := 0, unit := 0, data := fun _ => false,
    sample_lt := by decide, unit_lt := by decide }

/-- Reading `n` bits starting at absolute bit position `off`:
the loop in `bucket_get` ORs `1 << i` into the result for every set bit,
and since the positions are distinct the OR accumulates a sum. -/
def getBits (d : Nat → Bool) (off : Nat) : Nat → Nat
  | 0 => 0
  | n + 1 => getBits d off n + (if d (off + n) then 2 ^ n else 0)

/-- Writing the low `n` bits of `count` at absolute bit position `off`:
the loop in `bucket_set` sets or clears bit `off+i` according to bit `i` of
`count`, for `i = 0..n-1`; positions outside the range keep their old value. -/
def setBits (d : Nat → Bool) (off n count : Nat) : Nat → Bool :=
  fun j => if off ≤ j ∧ j < off + n then count.testBit (j - off) else d j

/-- `bucket_get(hist, bucket)` from the source. -/
def bucket_get (hist : tinyhist_t) (bucket : Nat) : Nat :=
  getBits hist.data (bucket_offset bucket) (bucket_bits bucket)

/-- `bucket_set(hist, bucket, count)` from the source.  The C code carries
`Assert(count < (0x1 << nbits))`; the loop itself writes only the low
`nbits` bits of `count`, which is what this model does. -/
def bucket_set (hist : tinyhist_t) (bucket count : Nat) : tinyhist_t :=
  { hist with data := setBits hist.data (bucket_offset bucket) (bucket_bits bucket) count }

/-- `bucket_maxcount(bucket) = (1L << bucket_bits[bucket]) - 1`. -/
def bucket_maxcount (bucket : Nat) : Nat :=
  2 ^ bucket_bits bucket - 1

/-- `hist_maxvalue(hist) = (1L << hist->unit) * (0x1 << 15)`. -/
def hist_maxvalue (hist : tinyhist_t) : Nat :=
  2 ^ hist.unit * 2 ^ 15

/-- `hist_adjust_sample`: halve every bucket, then `hist->sample++`
(a 4-bit bit-field increment, hence mod 16). -/
def hist_adjust_sample (hist : tinyhist_t) : tinyhist_t :=
  let h := (List.range 16).foldl (fun acc i => bucket_set acc i (bucket_get acc i / 2)) hist
  { h with sample := (h.sample + 1) % 16, sample_lt := Nat.mod_lt _ (by decide) }

/-- `hist_adjust_unit`: merge buckets 0 and 1, shift buckets 2..15 down by one,
zero the last bucket, then `hist->unit++` (4-bit bit-field increment, mod 16). -/
def hist_adjust_unit (hist : tinyhist_t) : tinyhist_t :=
  let h0 := bucket_set hist 0 (bucket_get hist 0 + bucket_get hist 1)
  let h1 := (List.range' 1 14).foldl (fun acc i => bucket_set acc i (bucket_get acc (i + 1))) h0
  let h2 := bucket_set h1 15 0
  { h2 with unit := (h2.unit + 1) % 16, unit_lt := Nat.mod_lt _ (by decide) }

/-- The overflow test of the inner loop of `hist_adjust_range`: `adjust_sample`
is set when merging buckets 0 and 1 would reach `bucket_maxcount(0)`, or when
some bucket `i+1` (for `i = 1..14`) would not fit into slot `i`. -/
def adjust_sample_needed (hist : tinyhist_t) : Bool :=
  decide (bucket_get hist 0 + bucket_get hist 1 ≥ bucket_maxcount 0) ||
    (List.range' 1 14).any fun i => decide (bucket_get hist (i + 1) ≥ bucket_maxcount i)

/-- The inner `while (true)` loop of `hist_adjust_range`: keep halving via
`hist_adjust_sample` until no bucket write of the upcoming `hist_adjust_unit`
would overflow.  Fuel-indexed; `sample_loop_16_needed_false` below proves that
16 units of fuel always leave the loop with the test false, because every
bucket counter is below `2^23` and 16 halvings bring it below `128`. -/
def sample_loop : Nat → tinyhist_t → tinyhist_t
  | 0, h => h
  | fuel + 1, h =>
      if adjust_sample_needed h then sample_loop fuel (hist_adjust_sample h) else h

/-- The outer `while (hist_maxvalue(hist) < value)` loop of `hist_adjust_range`,
fuel-indexed; `none` means the loop is still running when the fuel runs out.
Each iteration runs the inner sampling loop and then `hist_adjust_unit`. -/
def adjust_range_fuel : Nat → tinyhist_t → Nat → Option tinyhist_t
  | 0, _, _ => none
  | fuel + 1, h, value =>
      if hist_maxvalue h < value then
        adjust_range_fuel fuel (hist_adjust_unit (sample_loop 16 h)) value
      else
        some h

/-- `hist_adjust_range(hist, value)`.  Since `unit < 16`, the outer loop either
exits within 16 iterations or never exits (its guard only depends on `unit`,
which cycles mod 16), so 16 units of fuel decide the execution: `some` is the
result of the terminating run, `none` means the C loop diverges. -/
def hist_adjust_range (hist : tinyhist_t) (value : Nat) : Option tinyhist_t :=
  adjust_range_fuel 16 hist value

/-- The loop of `bucket_index`: starting from `idx`, advance while
`(1 << idx) * unit < value` where `unit = 1L << hist->unit`. -/
def bucket_index_from (hist : tinyhist_t) (value idx : Nat) : Nat :=
  if 2 ^ idx * 2 ^ hist.unit < value then bucket_index_from hist value (idx + 1) else idx
termination_by value - 2 ^ idx * 2 ^ hist.unit
decreasing_by
  have h1 : 2 ^ idx * 2 ^ hist.unit < 2 ^ (idx + 1) * 2 ^ hist.unit := by
    have h2 : 0 < 2 ^ hist.unit := Nat.pos_pow_of_pos _ (by decide)
    have h3 : (2 : Nat) ^ idx < 2 ^ (idx + 1) := Nat.pow_lt_pow_succ (by decide)
    exact Nat.mul_lt_mul_of_lt_of_le h3 (Nat.le_refl _) h2
  omega

/-- `bucket_index(hist, value)`: index of the insertion bucket. -/
def bucket_index (hist : tinyhist_t) (value : Nat) : Nat :=
  bucket_index_from hist value 0

/-- The sampled branch of `tinyhist_add`/`tinyhist_accum`/`tinyhist_add_array`:
grow the range, locate the bucket, halve first if the bucket is full, then
increment.  `none` propagates divergence of `hist_adjust_range`. -/
def add_sampled (hist : tinyhist_t) (value : Nat) : Option tinyhist_t :=
  (hist_adjust_range hist value).map fun h1 =>
    let bucket := bucket_index h1 value
    let h2 := if bucket_get h1 bucket = bucket_maxcount bucket then hist_adjust_sample h1 else h1
    bucket_set h2 bucket (bucket_get h2 bucket + 1)

/-- One accumulate step.  `keep` is the outcome of the `hist_sample` random
draw (true with probability `2^-sample`; always true when `sample = 0`);
when it is false the observation is discarded and the state unchanged. -/
def tinyhist_add (keep : Bool) (hist : tinyhist_t) (value : Nat) : Option tinyhist_t :=
  if keep then add_sampled hist value else some hist

/-- `n` accumulate steps of the same value, all with a true sampling draw. -/
def addN (value : Nat) : Nat → tinyhist_t → Option tinyhist_t
  | 0, h => some h
  | n + 1, h => (tinyhist_add true h value).bind (addN value n)

/-- The `while (x->sample < sample) hist_adjust_sample(x)` equalization loops
of `tinyhist_combine`, fuel-indexed.  Since both 4-bit fields are below 16 the
target (their max) is at most 15 and the loop runs at most 15 times, so the
16 units of fuel used by `tinyhist_combine` are never exhausted. -/
def adjust_sample_to (target : Nat) : Nat → tinyhist_t → tinyhist_t
  | 0, h => h
  | fuel + 1, h =>
      if h.sample < target then adjust_sample_to target fuel (hist_adjust_sample h) else h

/-- The `while (x->unit < unit) hist_adjust_unit(x)` equalization loops of
`tinyhist_combine`, fuel-indexed exactly like `adjust_sample_to`. -/
def adjust_unit_to (target : Nat) : Nat → tinyhist_t → tinyhist_t
  | 0, h => h
  | fuel + 1, h =>
      if h.unit < target then adjust_unit_to target fuel (hist_adjust_unit h) else h

/-- Phase 1 of `tinyhist_combine` (source order: `src` first, then `dst`):
raise the smaller `sample` to the max of the two. -/
def combine_sample_phase (p : tinyhist_t × tinyhist_t) : tinyhist_t × tinyhist_t :=
  let sample := max (p.2.sample) (p.1.sample)
  (adjust_sample_to sample 16 p.1, adjust_sample_to sample 16 p.2)

/-- Phase 2 of `tinyhist_combine`: raise the smaller `unit` to the max of the
two.  The source has no overflow guard in this phase. -/
def combine_unit_phase (p : tinyhist_t × tinyhist_t) : tinyhist_t × tinyhist_t :=
  let unit := max (p.2.unit) (p.1.unit)
  (adjust_unit_to unit 16 p.1, adjust_unit_to unit 16 p.2)

/-- Phase 3 of `tinyhist_combine`: if any bucket-wise sum would exceed its
`bucket_maxcount`, run one extra `hist_adjust_sample` pass on both sides. -/
def combine_overflow_phase (p : tinyhist_t × tinyhist_t) : tinyhist_t × tinyhist_t :=
  if (List.range 16).any (fun i =>
      decide (bucket_get p.2 i + bucket_get p.1 i > bucket_maxcount i)) then
    (hist_adjust_sample p.1, hist_adjust_sample p.2)
  else p

/-- Phase 4 of `tinyhist_combine`: `bucket_set(dst, i, get(src,i) + get(dst,i))`
for each bucket in order, reading the evolving `dst`. -/
def combine_merge_phase (p : tinyhist_t × tinyhist_t) : tinyhist_t :=
  (List.range 16).foldl (fun d i => bucket_set d i (bucket_get p.2 i + bucket_get d i)) p.1

/-- `tinyhist_combine(dst, src)` (the non-NULL path): the first component of
each pair is `dst`, the second is `src`; the result is the final `dst`. -/
def tinyhist_combine (dst src : tinyhist_t) : tinyhist_t :=
  combine_merge_phase (combine_overflow_phase (combine_unit_phase (combine_sample_phase (dst, src))))

/-- The 18-field sequence rendered by `tinyhist_out`:
`{sample, unit, bucket_0, ..., bucket_15}`.  The brace-and-comma text layer is
a bijective rendering of this field sequence and is abstracted away. -/
def tinyhist_out (hist : tinyhist_t) : List Nat :=
  hist.sample :: hist.unit :: (List.range 16).map (bucket_get hist)

/-- Number of fields `sscanf` matches on a well-formed comma list of `k`
integers against the 18-conversion format of `tinyhist_in`: all `k` fields
when `k ≤ 18`, and 18 (the conversions in the format) otherwise. -/
def sscanf_matched (fields : List Nat) : Nat :=
  min fields.length 18

/-- `tinyhist_in`: parse the field sequence.  The source checks the `sscanf`
result `r` with `if (r != 32) elog(ERROR, ...)`, so the histogram is only
built when 32 fields were matched; `%hhu` stores mod 256 and the 4-bit
bit-fields store mod 16. -/
def tinyhist_in (fields : List Nat) : Option tinyhist_t :=
  if sscanf_matched fields = 32 then
    some ((List.range 16).foldl
      (fun h i => bucket_set h i (fields.getD (2 + i) 0))
      { sample := fields.getD 0 0 % 256 % 16, unit := fields.getD 1 0 % 256 % 16,
        data := fun _ => false,
        sample_lt := Nat.mod_lt _ (by decide), unit_lt := Nat.mod_lt _ (by decide) })
  else none

/-- `pq_sendbyte`: append one byte (the low 8 bits of the argument). -/
def pq_sendbyte (buf : List Nat) (b : Nat) : List Nat :=
  buf ++ [b % 256]

/-- `tinyhist_send`: one byte for `sample`, then one byte per bucket holding
the low 8 bits of the decoded count.  `unit` is never sent. -/
def tinyhist_send (hist : tinyhist_t) : List Nat :=
  (List.range 16).foldl (fun buf i => pq_sendbyte buf (bucket_get hist i))
    (pq_sendbyte [] hist.sample)

/-- `tinyhist_recv`: start from `palloc0` (all zero, so `unit = 0`), read the
`sample` byte (stored into the 4-bit field, hence mod 16), then store one
received byte into each bucket. -/
def tinyhist_recv (bytes : List Nat) : tinyhist_t :=
  (List.range 16).foldl (fun h i => bucket_set h i (bytes.getD (1 + i) 0 % 256))
    { sample := bytes.getD 0 0 % 256 % 16, unit := 0, data := fun _ => false,
      sample_lt := Nat.mod_lt _ (by decide), unit_lt := by decide }

/-- Upper boundary of bucket `i` as the spec defines it:
`upper_i = 2^unit_exp * 2^i`. -/
def bucketUpper (hist : tinyhist_t) (i : Nat) : Nat :=
  2 ^ hist.unit * 2 ^ i

/-- Lower boundary of bucket `i` as the spec defines it:
`lower_0 = 0` and `lower_i = upper_i / 2` for `i > 0`. -/
def bucketLower (hist : tinyhist_t) (i : Nat) : Nat :=
  match i with
  | 0 => 0
  | k + 1 => bucketUpper hist (k + 1) / 2

/-- Histograms reachable from the zero state by the accumulate operation
(with an arbitrary sampling draw each time) and the merge operation. -/
inductive Reachable : tinyhist_t → Prop
  | zero : Reachable zero_hist
  | add {h h' : tinyhist_t} (keep : Bool) (value : Nat) :
      Reachable h → tinyhist_add keep h value = some h' → Reachable h'
  | combine {d s : tinyhist_t} :
      Reachable d → Reachable s → Reachable (tinyhist_combine d s)

/-! Core lemmas about the bit-field codec. -/

theorem getBits_lt (d : Nat → Bool) (off : Nat) : ∀ n, getBits d off n < 2 ^ n
  | 0 => by simp [getBits]
  | n + 1 => by
      have ih := getBits_lt d off n
      by_cases hd : d (off + n) <;>
        simp [getBits, hd, pow_succ] <;> omega

theorem getBits_congr {d1 d2 : Nat → Bool} (off : Nat) :
    ∀ n, (∀ k, k < n → d1 (off + k) = d2 (off + k)) →
      getBits d1 off n = getBits d2 off n
  | 0, _ => rfl
  | n + 1, h => by
      have ih := getBits_congr off n (fun k hk => h k (Nat.lt_succ_of_lt hk))
      simp [getBits, ih, h n (Nat.lt_succ_self n)]

theorem setBits_outside (d : Nat → Bool) {off n j : Nat} (c : Nat)
    (h : j < off ∨ off + n ≤ j) : setBits d off n c j = d j := by
  have : ¬(off ≤ j ∧ j < off + n) := by omega
  simp [setBits, this]

theorem mod_pow_succ_testBit (c n : Nat) :
    c % 2 ^ (n + 1) = c % 2 ^ n + (if c.testBit n then 2 ^ n else 0) := by
  have h1 : c % (2 ^ n * 2) = c % 2 ^ n + 2 ^ n * (c / 2 ^ n % 2) := Nat.mod_mul
  have h2 : c.testBit n = decide (c / 2 ^ n % 2 = 1) := Nat.testBit_to_div_mod
  rcases Nat.mod_two_eq_zero_or_one (c / 2 ^ n) with h3 | h3 <;>
    simp [pow_succ, h1, h2, h3]

theorem getBits_setBits (d : Nat → Bool) (off c : Nat) :
    ∀ n, getBits (setBits d off n c) off n = c % 2 ^ n
  | 0 => by simp [getBits, Nat.mod_one]
  | n + 1 => by
      have hcongr : getBits (setBits d off (n + 1) c) off n
          = getBits (setBits d off n c) off n := by
        refine getBits_congr off n (fun k hk => ?_)
        have h1 : off ≤ off + k ∧ off + k < off + (n + 1) := by omega
        have h2 : off ≤ off + k ∧ off + k < off + n := by omega
        simp [setBits, h1, h2]
      have hbit : setBits d off (n + 1) c (off + n) = c.testBit n := by
        have h1 : off ≤ off + n ∧ off + n < off + (n + 1) := by omega
        simp [setBits, h1]
      rw [getBits, hcongr, getBits_setBits d off c n, hbit, mod_pow_succ_testBit]

/-! Lemmas about the bucket layer. -/

theorem bucket_disjoint : ∀ i < 16, ∀ j < 16, i ≠ j →
    bucket_offset i + bucket_bits i ≤ bucket_offset j ∨
    bucket_offset j + bucket_bits j ≤ bucket_offset i := by decide

theorem bucket_get_lt (h : tinyhist_t) (i : Nat) :
    bucket_get h i < 2 ^ bucket_bits i :=
  getBits_lt h.data (bucket_offset i) (bucket_bits i)

theorem bucket_set_sample (h : tinyhist_t) (i c : Nat) :
    (bucket_set h i c).sample = h.sample := rfl

theorem bucket_set_unit (h : tinyhist_t) (i c : Nat) :
    (bucket_set h i c).unit = h.unit := rfl

theorem bucket_get_set_self (h : tinyhist_t) (i c : Nat) :
    bucket_get (bucket_set h i c) i = c % 2 ^ bucket_bits i :=
  getBits_setBits h.data (bucket_offset i) c (bucket_bits i)

theorem bucket_get_set_self_of_lt (h : tinyhist_t) {i c : Nat}
    (hc : c < 2 ^ bucket_bits i) : bucket_get (bucket_set h i c) i = c := by
  rw [bucket_get_set_self, Nat.mod_eq_of_lt hc]

theorem bucket_get_set_ne (h : tinyhist_t) {i j : Nat} (hi : i < 16) (hj : j < 16)
    (hne : j ≠ i) (c : Nat) : bucket_get (bucket_set h i c) j = bucket_get h j := by
  refine getBits_congr (bucket_offset j) (bucket_bits j) (fun k hk => ?_)
  refine setBits_outside h.data c ?_
  rcases bucket_disjoint i hi j hj (fun he => hne he.symm) with hd | hd <;> omega

/-! Field-preservation lemmas for the bucket-rewriting loops. -/

theorem foldl_set_sample (g : tinyhist_t → Nat → Nat) :
    ∀ (l : List Nat) (h : tinyhist_t),
      (l.foldl (fun acc i => bucket_set acc i (g acc i)) h).sample = h.sample
  | [], _ => rfl
  | i :: l, h => by
      rw [List.foldl_cons, foldl_set_sample g l, bucket_set_sample]

theorem foldl_set_unit (g : tinyhist_t → Nat → Nat) :
    ∀ (l : List Nat) (h : tinyhist_t),
      (l.foldl (fun acc i => bucket_set acc i (g acc i)) h).unit = h.unit
  | [], _ => rfl
  | i :: l, h => by
      rw [List.foldl_cons, foldl_set_unit g l, bucket_set_unit]

theorem hist_adjust_sample_sample (h : tinyhist_t) :
    (hist_adjust_sample h).sample = (h.sample + 1) % 16 := by
  simp only [hist_adjust_sample]
  rw [foldl_set_sample]

theorem hist_adjust_sample_unit (h : tinyhist_t) :
    (hist_adjust_sample h).unit = h.unit := by
  simp only [hist_adjust_sample]
  rw [foldl_set_unit]

theorem hist_adjust_unit_unit (h : tinyhist_t) :
    (hist_adjust_unit h).unit = (h.unit + 1) % 16 := by
  simp only [hist_adjust_unit]
  rw [bucket_set_unit, foldl_set_unit, bucket_set_unit]

theorem hist_adjust_unit_sample (h : tinyhist_t) :
    (hist_adjust_unit h).sample = h.sample := by
  simp only [hist_adjust_unit]
  rw [bucket_set_sample, foldl_set_sample, bucket_set_sample]

/-! Bucket-value characterizations of the three bucket-rewriting loops. -/

theorem halve_fold_get :
    ∀ (n a : Nat), a + n ≤ 16 → ∀ (h : tinyhist_t) (j : Nat), j < 16 →
      bucket_get ((List.range' a n).foldl
          (fun acc i => bucket_set acc i (bucket_get acc i / 2)) h) j
        = if a ≤ j ∧ j < a + n then bucket_get h j / 2 else bucket_get h j
  | 0, a, _, h, j, _ => by
      rw [show List.range' a 0 = [] from rfl, List.foldl_nil, if_neg (by omega)]
  | n + 1, a, han, h, j, hj => by
      rw [List.range'_succ, List.foldl_cons]
      have ha : a < 16 := by omega
      have hlt : bucket_get h a / 2 < 2 ^ bucket_bits a :=
        lt_of_le_of_lt (Nat.div_le_self _ _) (bucket_get_lt h a)
      rcases eq_or_ne j a with rfl | hne
      · rw [halve_fold_get n (j + 1) (by omega) _ j hj, if_neg (by omega),
          bucket_get_set_self_of_lt h hlt, if_pos (by omega)]
      · rw [halve_fold_get n (a + 1) (by omega) _ j hj, bucket_get_set_ne h ha hj hne]
        by_cases hc : a + 1 ≤ j ∧ j < a + 1 + n
        · rw [if_pos hc, if_pos (by omega)]
        · rw [if_neg hc, if_neg (by omega)]

theorem hist_adjust_sample_get (h : tinyhist_t) {j : Nat} (hj : j < 16) :
    bucket_get (hist_adjust_sample h) j = bucket_get h j / 2 := by
  have hfold := halve_fold_get 16 0 (by omega) h j hj
  rw [if_pos (by omega)] at hfold
  simp only [hist_adjust_sample]
  show bucket_get ((List.range 16).foldl _ h) j = _
  rw [List.range_eq_range', hfold]

theorem shift_fold_get :
    ∀ (n a : Nat), 1 ≤ a → a + n ≤ 15 → ∀ (h : tinyhist_t) (j : Nat), j < 16 →
      bucket_get ((List.range' a n).foldl
          (fun acc i => bucket_set acc i (bucket_get acc (i + 1))) h) j
        = if a ≤ j ∧ j < a + n then bucket_get h (j + 1) % 2 ^ bucket_bits j
          else bucket_get h j
  | 0, a, _, _, h, j, _ => by
      rw [show List.range' a 0 = [] from rfl, List.foldl_nil, if_neg (by omega)]
  | n + 1, a, ha1, han, h, j, hj => by
      rw [List.range'_succ, List.foldl_cons]
      have ha : a < 16 := by omega
      rcases eq_or_ne j a with rfl | hne
      · rw [shift_fold_get n (j + 1) (by omega) (by omega) _ j hj, if_neg (by omega),
          bucket_get_set_self h, if_pos (by omega)]
      · rw [shift_fold_get n (a + 1) (by omega) (by omega) _ j hj,
          bucket_get_set_ne h ha hj hne]
        by_cases hc : a + 1 ≤ j ∧ j < a + 1 + n
        · have hj1 : j + 1 < 16 := by omega
          rw [if_pos hc, if_pos (by omega), bucket_get_set_ne h ha hj1 (by omega)]
        · rw [if_neg hc, if_neg (by omega)]

theorem bucket_get_update_unit (h : tinyhist_t) (u : Nat) (p : u < 16) (j : Nat) :
    bucket_get { h with unit := u, unit_lt := p } j = bucket_get h j := rfl

theorem bucket_get_update_sample (h : tinyhist_t) (s : Nat) (p : s < 16) (j : Nat) :
    bucket_get { h with sample := s, sample_lt := p } j = bucket_get h j := rfl

theorem hist_adjust_unit_get_aux (h h1 : tinyhist_t)
    (e1 : h1 = (List.range' 1 14).foldl (fun acc i => bucket_set acc i (bucket_get acc (i + 1)))
      (bucket_set h 0 (bucket_get h 0 + bucket_get h 1))) :
    bucket_get (bucket_set h1 15 0) 0
        = (bucket_get h 0 + bucket_get h 1) % 2 ^ bucket_bits 0
    ∧ (∀ i, 1 ≤ i → i ≤ 14 →
        bucket_get (bucket_set h1 15 0) i = bucket_get h (i + 1) % 2 ^ bucket_bits i)
    ∧ bucket_get (bucket_set h1 15 0) 15 = 0 := by
  have hget1 : ∀ j, j < 16 →
      bucket_get h1 j = if 1 ≤ j ∧ j < 1 + 14
        then bucket_get (bucket_set h 0 (bucket_get h 0 + bucket_get h 1)) (j + 1)
          % 2 ^ bucket_bits j
        else bucket_get (bucket_set h 0 (bucket_get h 0 + bucket_get h 1)) j := by
    intro j hj
    rw [e1, shift_fold_get 14 1 (by omega) (by omega) _ j hj]
  refine ⟨?_, ?_, ?_⟩
  · rw [bucket_get_set_ne h1 (by omega) (by omega) (by omega),
      hget1 0 (by omega), if_neg (by omega), bucket_get_set_self]
  · intro i h1i hi14
    rw [bucket_get_set_ne h1 (by omega) (by omega) (by omega),
      hget1 i (by omega), if_pos (by omega),
      bucket_get_set_ne h (by omega) (by omega) (by omega)]
  · rw [bucket_get_set_self]
    simp

theorem hist_adjust_unit_get (h : tinyhist_t) :
    bucket_get (hist_adjust_unit h) 0
        = (bucket_get h 0 + bucket_get h 1) % 2 ^ bucket_bits 0
    ∧ (∀ i, 1 ≤ i → i ≤ 14 →
        bucket_get (hist_adjust_unit h) i = bucket_get h (i + 1) % 2 ^ bucket_bits i)
    ∧ bucket_get (hist_adjust_unit h) 15 = 0 := by
  have haux := hist_adjust_unit_get_aux h _ rfl
  simpa only [hist_adjust_unit, bucket_get_update_unit] using haux

theorem merge_fold_get (src : tinyhist_t) :
    ∀ (n a : Nat), a + n ≤ 16 → ∀ (h : tinyhist_t) (j : Nat), j < 16 →
      bucket_get ((List.range' a n).foldl
          (fun acc i => bucket_set acc i (bucket_get src i + bucket_get acc i)) h) j
        = if a ≤ j ∧ j < a + n
          then (bucket_get src j + bucket_get h j) % 2 ^ bucket_bits j
          else bucket_get h j
  | 0, a, _, h, j, _ => by
      rw [show List.range' a 0 = [] from rfl, List.foldl_nil, if_neg (by omega)]
  | n + 1, a, han, h, j, hj => by
      rw [List.range'_succ, List.foldl_cons]
      have ha : a < 16 := by omega
      rcases eq_or_ne j a with rfl | hne
      · rw [merge_fold_get src n (j + 1) (by omega) _ j hj, if_neg (by omega),
          bucket_get_set_self h, if_pos (by omega)]
      · rw [merge_fold_get src n (a + 1) (by omega) _ j hj, bucket_get_set_ne h ha hj hne]
        by_cases hc : a + 1 ≤ j ∧ j < a + 1 + n
        · rw [if_pos hc, if_pos (by omega)]
        · rw [if_neg hc, if_neg (by omega)]

/-! Lemmas about the inner sampling loop and the range-growing loop. -/

theorem bucket_maxcount_ge : ∀ i < 16, 128 ≤ bucket_maxcount i := by decide

theorem bucket_bits_le : ∀ i < 16, 2 ^ bucket_bits i ≤ 2 ^ 23 := by decide

theorem adjust_sample_needed_false (h : tinyhist_t)
    (hsmall : ∀ i, i < 16 → bucket_get h i < 128) :
    adjust_sample_needed h = false := by
  rw [adjust_sample_needed, Bool.or_eq_false_iff]
  constructor
  · have h0 := hsmall 0 (by omega)
    have h1 := hsmall 1 (by omega)
    have : ¬(bucket_get h 0 + bucket_get h 1 ≥ bucket_maxcount 0) := by
      have : bucket_maxcount 0 = 255 := rfl
      omega
    exact decide_eq_false this
  · rw [List.any_eq_false]
    intro i hi
    have hmem : 1 ≤ i ∧ i < 1 + 14 := ⟨(List.mem_range'_1.mp hi).1, (List.mem_range'_1.mp hi).2⟩
    have hget := hsmall (i + 1) (by omega)
    have hmax := bucket_maxcount_ge i (by omega)
    simp only [decide_eq_true_eq]
    omega

theorem sample_loop_unit : ∀ (fuel : Nat) (h : tinyhist_t),
    (sample_loop fuel h).unit = h.unit
  | 0, _ => rfl
  | fuel + 1, h => by
      rw [sample_loop]
      by_cases hc : adjust_sample_needed h = true
      · rw [if_pos hc, sample_loop_unit fuel, hist_adjust_sample_unit]
      · rw [if_neg hc]

theorem sample_loop_bound : ∀ (n fuel : Nat) (h : tinyhist_t), n ≤ fuel →
    (∀ i, i < 16 → bucket_get h i < 128 * 2 ^ n) →
    adjust_sample_needed (sample_loop fuel h) = false
  | 0, fuel, h, _, hsmall => by
      have hfalse : adjust_sample_needed h = false :=
        adjust_sample_needed_false h (by simpa using hsmall)
      cases fuel with
      | zero => exact hfalse
      | succ fuel => rw [sample_loop, hfalse]; simp [hfalse]
  | n + 1, fuel, h, hle, hsmall => by
      obtain ⟨f, rfl⟩ : ∃ f, fuel = f + 1 := ⟨fuel - 1, by omega⟩
      rw [sample_loop]
      by_cases hc : adjust_sample_needed h = true
      · rw [if_pos hc]
        refine sample_loop_bound n f (hist_adjust_sample h) (by omega) (fun i hi => ?_)
        rw [hist_adjust_sample_get h hi]
        have := hsmall i hi
        have hp : 128 * 2 ^ (n + 1) = 128 * 2 ^ n * 2 := by ring
        omega
      · rw [if_neg hc]
        simpa using hc

theorem sample_loop_16_needed_false (h : tinyhist_t) :
    adjust_sample_needed (sample_loop 16 h) = false := by
  refine sample_loop_bound 16 16 h le_rfl (fun i hi => ?_)
  have h1 := bucket_get_lt h i
  have h2 := bucket_bits_le i hi
  have : (128 : Nat) * 2 ^ 16 = 2 ^ 23 := by norm_num
  omega

theorem hist_maxvalue_le (h : tinyhist_t) : hist_maxvalue h ≤ 2 ^ 30 := by
  rw [hist_maxvalue, ← pow_add]
  exact Nat.pow_le_pow_right (by decide) (by have := h.unit_lt; omega)

theorem adjust_range_none {value : Nat} (hv : 2 ^ 30 < value) :
    ∀ (fuel : Nat) (h : tinyhist_t), adjust_range_fuel fuel h value = none
  | 0, _ => rfl
  | fuel + 1, h => by
      rw [adjust_range_fuel, if_pos (lt_of_le_of_lt (hist_maxvalue_le h) hv)]
      exact adjust_range_none hv fuel _

theorem hist_adjust_unit_unit_of_lt {h : tinyhist_t} (hu : h.unit < 15) :
    (hist_adjust_unit h).unit = h.unit + 1 := by
  rw [hist_adjust_unit_unit, Nat.mod_eq_of_lt (by omega)]

theorem adjust_range_some : ∀ (fuel : Nat) (h : tinyhist_t) (value : Nat),
    value ≤ 2 ^ 30 → 16 ≤ h.unit + fuel →
    ∃ h', adjust_range_fuel fuel h value = some h'
      ∧ value ≤ hist_maxvalue h' ∧ h.unit ≤ h'.unit
  | 0, h, value, _, hfuel => absurd h.unit_lt (by omega)
  | fuel + 1, h, value, hv, hfuel => by
      rw [adjust_range_fuel]
      by_cases hc : hist_maxvalue h < value
      · have hu : h.unit < 15 := by
          have h1 : 2 ^ (h.unit + 15) < 2 ^ 30 := by
            have h0 := lt_of_lt_of_le hc hv
            rwa [hist_maxvalue, ← pow_add] at h0
          have h2 : h.unit + 15 < 30 := (Nat.pow_lt_pow_iff_right (by decide)).mp h1
          omega
        have hunit : (hist_adjust_unit (sample_loop 16 h)).unit = h.unit + 1 := by
          rw [hist_adjust_unit_unit, sample_loop_unit, Nat.mod_eq_of_lt (by omega)]
        obtain ⟨h', he, hmax, hle⟩ :=
          adjust_range_some fuel (hist_adjust_unit (sample_loop 16 h)) value hv
            (by rw [hunit]; omega)
        exact ⟨h', by rw [if_pos hc]; exact he, hmax, by rw [hunit] at hle; omega⟩
      · exact ⟨h, by rw [if_neg hc], by omega, le_rfl⟩

/-! Lemmas about `bucket_index`. -/

theorem pow_mul_lt_succ (u idx : Nat) :
    2 ^ idx * 2 ^ u < 2 ^ (idx + 1) * 2 ^ u := by
  have h2 : 0 < 2 ^ u := Nat.pos_pow_of_pos _ (by decide)
  have h3 : (2 : Nat) ^ idx < 2 ^ (idx + 1) := Nat.pow_lt_pow_succ (by decide)
  exact Nat.mul_lt_mul_of_lt_of_le h3 (Nat.le_refl _) h2

theorem bucket_index_from_ge : ∀ (n : Nat) (h : tinyhist_t) (value idx : Nat),
    value - 2 ^ idx * 2 ^ h.unit ≤ n →
    value ≤ 2 ^ (bucket_index_from h value idx) * 2 ^ h.unit
  | 0, h, value, idx, hm => by
      by_cases hc : 2 ^ idx * 2 ^ h.unit < value
      · omega
      · rw [bucket_index_from.eq_def, if_neg hc]
        omega
  | n + 1, h, value, idx, hm => by
      by_cases hc : 2 ^ idx * 2 ^ h.unit < value
      · rw [bucket_index_from.eq_def, if_pos hc]
        refine bucket_index_from_ge n h value (idx + 1) ?_
        have hstep := pow_mul_lt_succ h.unit idx
        omega
      · rw [bucket_index_from.eq_def, if_neg hc]
        omega

theorem bucket_index_from_min : ∀ (n : Nat) (h : tinyhist_t) (value idx j : Nat),
    value - 2 ^ idx * 2 ^ h.unit ≤ n → idx ≤ j → j < bucket_index_from h value idx →
    2 ^ j * 2 ^ h.unit < value
  | 0, h, value, idx, j, hm, hij, hlt => by
      by_cases hc : 2 ^ idx * 2 ^ h.unit < value
      · omega
      · rw [bucket_index_from.eq_def, if_neg hc] at hlt
        omega
  | n + 1, h, value, idx, j, hm, hij, hlt => by
      by_cases hc : 2 ^ idx * 2 ^ h.unit < value
      · rw [bucket_index_from.eq_def, if_pos hc] at hlt
        rcases eq_or_ne j idx with rfl | hne
        · exact hc
        · have hstep := pow_mul_lt_succ h.unit idx
          exact bucket_index_from_min n h value (idx + 1) j (by omega) (by omega) hlt
      · rw [bucket_index_from.eq_def, if_neg hc] at hlt
        omega

theorem bucket_index_ge (h : tinyhist_t) (value : Nat) :
    value ≤ 2 ^ bucket_index h value * 2 ^ h.unit :=
  bucket_index_from_ge value h value 0 (by omega)

theorem bucket_index_min (h : tinyhist_t) (value : Nat) {j : Nat}
    (hj : j < bucket_index h value) : 2 ^ j * 2 ^ h.unit < value :=
  bucket_index_from_min value h value 0 j (by omega) (Nat.zero_le j) hj

theorem bucket_index_eq (h : tinyhist_t) {value i : Nat}
    (hup : value ≤ 2 ^ i * 2 ^ h.unit)
    (hlow : ∀ j, j < i → 2 ^ j * 2 ^ h.unit < value) :
    bucket_index h value = i := by
  rcases Nat.lt_trichotomy (bucket_index h value) i with hlt | heq | hgt
  · exact absurd (bucket_index_ge h value) (by have := hlow _ hlt; omega)
  · exact heq
  · exact absurd (bucket_index_min h value hgt) (by omega)

theorem bucket_index_lt_16 (h : tinyhist_t) {value : Nat}
    (hv : value ≤ hist_maxvalue h) : bucket_index h value < 16 := by
  by_contra hge
  have h15 := bucket_index_min h value (j := 15) (by omega)
  rw [hist_maxvalue] at hv
  have : (2 : Nat) ^ 15 * 2 ^ h.unit = 2 ^ h.unit * 2 ^ 15 := Nat.mul_comm _ _
  omega

/-! Lemmas about one accumulate step. -/

theorem getBits_false (off : Nat) : ∀ n, getBits (fun _ => false) off n = 0
  | 0 => rfl
  | n + 1 => by rw [getBits, getBits_false off n]; simp

theorem zero_hist_get (j : Nat) : bucket_get zero_hist j = 0 :=
  getBits_false _ _

theorem adjust_range_fuel_noop (fuel : Nat) (h : tinyhist_t) {value : Nat}
    (hv : value ≤ hist_maxvalue h) :
    adjust_range_fuel (fuel + 1) h value = some h := by
  rw [adjust_range_fuel, if_neg (by omega)]

theorem adjust_range_noop (h : tinyhist_t) {value : Nat} (hv : value ≤ hist_maxvalue h) :
    hist_adjust_range h value = some h :=
  adjust_range_fuel_noop 15 h hv

theorem sample_loop_noop (fuel : Nat) (h : tinyhist_t)
    (hc : adjust_sample_needed h = false) : sample_loop (fuel + 1) h = h := by
  rw [sample_loop, hc]
  simp

theorem tinyhist_add_step (h : tinyhist_t) {value i : Nat}
    (hv : value ≤ hist_maxvalue h) (hidx : bucket_index h value = i)
    (hnotfull : bucket_get h i < bucket_maxcount i) :
    tinyhist_add true h value = some (bucket_set h i (bucket_get h i + 1)) := by
  rw [tinyhist_add, if_pos rfl, add_sampled, adjust_range_noop h hv]
  rw [Option.map_some', hidx]
  have hne : bucket_get h i ≠ bucket_maxcount i := by omega
  simp only [hne, ite_false, if_false]

/-- Accumulating value 1 into a `sample = 0`, `unit = 0` histogram with bucket 0
below its maximum and all other buckets zero: bucket 0 gains one count. -/
theorem addN_ones : ∀ (n : Nat) (h : tinyhist_t) (c : Nat), h.sample = 0 → h.unit = 0 →
    bucket_get h 0 = c → (∀ j, 1 ≤ j → j < 16 → bucket_get h j = 0) → c + n ≤ 255 →
    ∃ h', addN 1 n h = some h' ∧ h'.sample = 0 ∧ h'.unit = 0
      ∧ bucket_get h' 0 = c + n ∧ ∀ j, 1 ≤ j → j < 16 → bucket_get h' j = 0
  | 0, h, c, hs, hu, h0, hrest, hle => ⟨h, rfl, hs, hu, by omega, hrest⟩
  | n + 1, h, c, hs, hu, h0, hrest, hle => by
      have hmax : (1 : Nat) ≤ hist_maxvalue h := by
        rw [hist_maxvalue, hu]
        norm_num
      have hidx : bucket_index h 1 = 0 :=
        bucket_index_eq h (by rw [hu]; norm_num) (by omega)
      have hnotfull : bucket_get h 0 < bucket_maxcount 0 := by
        rw [h0]
        have : bucket_maxcount 0 = 255 := rfl
        omega
      have hstep := tinyhist_add_step h hmax hidx hnotfull
      have hlt : bucket_get h 0 + 1 < 2 ^ bucket_bits 0 := by
        rw [h0]
        have : (2 : Nat) ^ bucket_bits 0 = 256 := rfl
        omega
      obtain ⟨h', he, hs', hu', h0', hrest'⟩ :=
        addN_ones n (bucket_set h 0 (bucket_get h 0 + 1)) (c + 1)
          (by rw [bucket_set_sample, hs]) (by rw [bucket_set_unit, hu])
          (by rw [bucket_get_set_self_of_lt h hlt, h0])
          (fun j hj1 hj16 => by
            rw [bucket_get_set_ne h (by omega) hj16 (by omega), hrest j hj1 hj16])
          (by omega)
      refine ⟨h', ?_, hs', hu', by omega, hrest'⟩
      rw [addN, hstep, Option.some_bind]
      exact he

/-- Accumulating value 2 into a `sample = 0`, `unit = 0` histogram with bucket 1
below its maximum and buckets 2..15 zero: bucket 1 gains one count. -/
theorem addN_twos : ∀ (n : Nat) (h : tinyhist_t) (a c : Nat), h.sample = 0 → h.unit = 0 →
    bucket_get h 0 = a → bucket_get h 1 = c →
    (∀ j, 2 ≤ j → j < 16 → bucket_get h j = 0) → c + n ≤ 511 →
    ∃ h', addN 2 n h = some h' ∧ h'.sample = 0 ∧ h'.unit = 0
      ∧ bucket_get h' 0 = a ∧ bucket_get h' 1 = c + n
      ∧ ∀ j, 2 ≤ j → j < 16 → bucket_get h' j = 0
  | 0, h, a, c, hs, hu, h0, h1, hrest, hle => ⟨h, rfl, hs, hu, h0, by omega, hrest⟩
  | n + 1, h, a, c, hs, hu, h0, h1, hrest, hle => by
      have hmax : (2 : Nat) ≤ hist_maxvalue h := by
        rw [hist_maxvalue, hu]
        norm_num
      have hidx : bucket_index h 2 = 1 := by
        refine bucket_index_eq h (by rw [hu]; norm_num) (fun j hj => ?_)
        have : j = 0 := by omega
        subst this
        rw [hu]
        norm_num
      have hnotfull : bucket_get h 1 < bucket_maxcount 1 := by
        rw [h1]
        have : bucket_maxcount 1 = 511 := rfl
        omega
      have hstep := tinyhist_add_step h hmax hidx hnotfull
      have hlt : bucket_get h 1 + 1 < 2 ^ bucket_bits 1 := by
        rw [h1]
        have : (2 : Nat) ^ bucket_bits 1 = 512 := rfl
        omega
      obtain ⟨h', he, hs', hu', h0', h1', hrest'⟩ :=
        addN_twos n (bucket_set h 1 (bucket_get h 1 + 1)) a (c + 1)
          (by rw [bucket_set_sample, hs]) (by rw [bucket_set_unit, hu])
          (by rw [bucket_get_set_ne h (by omega) (by omega) (by omega), h0])
          (by rw [bucket_get_set_self_of_lt h hlt, h1])
          (fun j hj2 hj16 => by
            rw [bucket_get_set_ne h (by omega) hj16 (by omega), hrest j hj2 hj16])
          (by omega)
      refine ⟨h', ?_, hs', hu', h0', by omega, hrest'⟩
      rw [addN, hstep, Option.some_bind]
      exact he

theorem Reachable_addN : ∀ (v n : Nat) (h h' : tinyhist_t),
    Reachable h → addN v n h = some h' → Reachable h'
  | v, 0, h, h', hr, he => by
      rw [addN] at he
      cases he
      exact hr
  | v, n + 1, h, h', hr, he => by
      rw [addN] at he
      rcases Option.bind_eq_some.mp he with ⟨h1, he1, he2⟩
      exact Reachable_addN v n h1 h' (Reachable.add true v hr he1) he2

/-! Lemmas about the equalization loops of `tinyhist_combine`. -/

theorem adjust_sample_to_unit : ∀ (fuel target : Nat) (h : tinyhist_t),
    (adjust_sample_to target fuel h).unit = h.unit
  | 0, _, _ => rfl
  | fuel + 1, target, h => by
      rw [adjust_sample_to]
      by_cases hc : h.sample < target
      · rw [if_pos hc, adjust_sample_to_unit fuel, hist_adjust_sample_unit]
      · rw [if_neg hc]

theorem adjust_sample_to_sample : ∀ (fuel target : Nat) (h : tinyhist_t),
    target ≤ 15 → h.sample ≤ target → target ≤ h.sample + fuel →
    (adjust_sample_to target fuel h).sample = target
  | 0, target, h, _, hle, hfuel => by
      rw [adjust_sample_to]
      omega
  | fuel + 1, target, h, h15, hle, hfuel => by
      rw [adjust_sample_to]
      by_cases hc : h.sample < target
      · rw [if_pos hc]
        refine adjust_sample_to_sample fuel target (hist_adjust_sample h) h15 ?_ ?_ <;>
          rw [hist_adjust_sample_sample, Nat.mod_eq_of_lt (by omega)] <;> omega
      · rw [if_neg hc]
        omega

theorem adjust_sample_to_noop (target fuel : Nat) (h : tinyhist_t)
    (hc : ¬h.sample < target) : adjust_sample_to target (fuel + 1) h = h := by
  rw [adjust_sample_to, if_neg hc]

theorem adjust_unit_to_sample : ∀ (fuel target : Nat) (h : tinyhist_t),
    (adjust_unit_to target fuel h).sample = h.sample
  | 0, _, _ => rfl
  | fuel + 1, target, h => by
      rw [adjust_unit_to]
      by_cases hc : h.unit < target
      · rw [if_pos hc, adjust_unit_to_sample fuel, hist_adjust_unit_sample]
      · rw [if_neg hc]

theorem adjust_unit_to_unit : ∀ (fuel target : Nat) (h : tinyhist_t),
    target ≤ 15 → h.unit ≤ target → target ≤ h.unit + fuel →
    (adjust_unit_to target fuel h).unit = target
  | 0, target, h, _, hle, hfuel => by
      rw [adjust_unit_to]
      omega
  | fuel + 1, target, h, h15, hle, hfuel => by
      rw [adjust_unit_to]
      by_cases hc : h.unit < target
      · rw [if_pos hc]
        refine adjust_unit_to_unit fuel target (hist_adjust_unit h) h15 ?_ ?_ <;>
          rw [hist_adjust_unit_unit, Nat.mod_eq_of_lt (by omega)] <;> omega
      · rw [if_neg hc]
        omega

theorem adjust_unit_to_noop (target fuel : Nat) (h : tinyhist_t)
    (hc : ¬h.unit < target) : adjust_unit_to target (fuel + 1) h = h := by
  rw [adjust_unit_to, if_neg hc]

theorem combine_overflow_phase_unit (p : tinyhist_t × tinyhist_t) :
    (combine_overflow_phase p).1.unit = p.1.unit
    ∧ (combine_overflow_phase p).2.unit = p.2.unit := by
  rw [combine_overflow_phase]
  by_cases hc : (List.range 16).any (fun i =>
      decide (bucket_get p.2 i + bucket_get p.1 i > bucket_maxcount i)) = true
  · rw [if_pos hc]
    exact ⟨hist_adjust_sample_unit p.1, hist_adjust_sample_unit p.2⟩
  · rw [if_neg hc]
    exact ⟨rfl, rfl⟩

theorem combine_merge_phase_unit (p : tinyhist_t × tinyhist_t) :
    (combine_merge_phase p).unit = p.1.unit := by
  rw [combine_merge_phase, foldl_set_unit]

theorem tinyhist_combine_unit (dst src : tinyhist_t) :
    (tinyhist_combine dst src).unit = max dst.unit src.unit := by
  have hs := src.unit_lt
  have hd := dst.unit_lt
  rw [tinyhist_combine, combine_merge_phase_unit, (combine_overflow_phase_unit _).1]
  rw [combine_unit_phase]
  have h1 : (combine_sample_phase (dst, src)).1.unit = dst.unit := adjust_sample_to_unit _ _ _
  have h2 : (combine_sample_phase (dst, src)).2.unit = src.unit := adjust_sample_to_unit _ _ _
  rw [adjust_unit_to_unit 16 _ _ (by omega) (by rw [h1, h2]; omega) (by omega), h1, h2]
  omega

/-! Concrete executions used by the merge-overflow analysis. -/

theorem sample_loop_noop' (fuel : Nat) (h : tinyhist_t) (hf : fuel ≠ 0)
    (hc : adjust_sample_needed h = false) : sample_loop fuel h = h := by
  cases fuel with
  | zero => exact absurd rfl hf
  | succ f => exact sample_loop_noop f h hc

theorem adjust_range_fuel_noop' (fuel : Nat) (h : tinyhist_t) {value : Nat}
    (hf : fuel ≠ 0) (hv : value ≤ hist_maxvalue h) :
    adjust_range_fuel fuel h value = some h := by
  cases fuel with
  | zero => exact absurd rfl hf
  | succ f => exact adjust_range_fuel_noop f h hv

theorem adjust_range_fuel_step (fuel : Nat) (h : tinyhist_t) {value : Nat}
    (hv : hist_maxvalue h < value) :
    adjust_range_fuel (fuel + 1) h value
      = adjust_range_fuel fuel (hist_adjust_unit (sample_loop 16 h)) value := by
  rw [adjust_range_fuel, if_pos hv]

theorem adjust_sample_to_noop' (target fuel : Nat) (h : tinyhist_t) (hf : fuel ≠ 0)
    (hc : ¬h.sample < target) : adjust_sample_to target fuel h = h := by
  cases fuel with
  | zero => exact absurd rfl hf
  | succ f => exact adjust_sample_to_noop target f h hc

theorem adjust_unit_to_noop' (target fuel : Nat) (h : tinyhist_t) (hf : fuel ≠ 0)
    (hc : ¬h.unit < target) : adjust_unit_to target fuel h = h := by
  cases fuel with
  | zero => exact absurd rfl hf
  | succ f => exact adjust_unit_to_noop target f h hc

theorem z1_facts :
    (hist_adjust_unit zero_hist).sample = 0
    ∧ (hist_adjust_unit zero_hist).unit = 1
    ∧ ∀ j, j < 16 → bucket_get (hist_adjust_unit zero_hist) j = 0 := by
  obtain ⟨hg0, hgmid, hg15⟩ := hist_adjust_unit_get zero_hist
  refine ⟨by rw [hist_adjust_unit_sample]; rfl, by rw [hist_adjust_unit_unit]; rfl, ?_⟩
  intro j hj
  rcases Nat.lt_or_ge j 1 with h0 | h1
  · have hj0 : j = 0 := by omega
    subst hj0
    rw [hg0, zero_hist_get, zero_hist_get]
    rfl
  · rcases Nat.lt_or_ge j 15 with h14 | h15
    · rw [hgmid j (by omega) (by omega), zero_hist_get]
      simp
    · have hj15 : j = 15 := by omega
      subst hj15
      exact hg15

theorem range_65536 :
    hist_adjust_range zero_hist 65536 = some (hist_adjust_unit zero_hist) := by
  obtain ⟨hzs, hzu, hzg⟩ := z1_facts
  rw [hist_adjust_range]
  have hstep := adjust_range_fuel_step 15 zero_hist
    (show hist_maxvalue zero_hist < 65536 by rw [hist_maxvalue]; norm_num [zero_hist])
  rw [hstep, sample_loop_noop' 16 zero_hist (by omega)
    (adjust_sample_needed_false zero_hist (fun i _ => by rw [zero_hist_get]; omega))]
  exact adjust_range_fuel_noop' 15 _ (by omega) (by rw [hist_maxvalue, hzu]; norm_num)

theorem add_src : tinyhist_add true zero_hist 65536
    = some (bucket_set (hist_adjust_unit zero_hist) 15 1) := by
  obtain ⟨hzs, hzu, hzg⟩ := z1_facts
  rw [tinyhist_add, if_pos rfl, add_sampled, range_65536, Option.map_some']
  have hidx : bucket_index (hist_adjust_unit zero_hist) 65536 = 15 := by
    refine bucket_index_eq _ ?_ ?_
    · rw [hzu]
      norm_num
    · intro j hj
      rw [hzu]
      have hp : (2 : Nat) ^ j ≤ 2 ^ 14 := Nat.pow_le_pow_right (by decide) (by omega)
      have : (2 : Nat) ^ 1 = 2 := rfl
      omega
  rw [hidx]
  have hne : bucket_get (hist_adjust_unit zero_hist) 15 ≠ bucket_maxcount 15 := by
    rw [hzg 15 (by omega)]
    decide
  simp only [hne, ite_false, if_false]
  rw [hzg 15 (by omega)]

theorem src_facts :
    (bucket_set (hist_adjust_unit zero_hist) 15 1).sample = 0
    ∧ (bucket_set (hist_adjust_unit zero_hist) 15 1).unit = 1
    ∧ bucket_get (bucket_set (hist_adjust_unit zero_hist) 15 1) 15 = 1
    ∧ ∀ j, j < 15 → bucket_get (bucket_set (hist_adjust_unit zero_hist) 15 1) j = 0 := by
  obtain ⟨hzs, hzu, hzg⟩ := z1_facts
  refine ⟨by rw [bucket_set_sample, hzs], by rw [bucket_set_unit, hzu], ?_, ?_⟩
  · exact bucket_get_set_self_of_lt _ (by decide)
  · intro j hj
    rw [bucket_get_set_ne _ (by omega) (by omega) (by omega), hzg j (by omega)]

theorem combine_merge_phase_get (p : tinyhist_t × tinyhist_t) {j : Nat} (hj : j < 16) :
    bucket_get (combine_merge_phase p) j
      = (bucket_get p.2 j + bucket_get p.1 j) % 2 ^ bucket_bits j := by
  rw [combine_merge_phase, List.range_eq_range']
  have hm := merge_fold_get p.2 16 0 (by omega) p.1 j hj
  rw [if_pos (by omega)] at hm
  exact hm

theorem adjust_unit_to_step (target fuel : Nat) (h : tinyhist_t) (hc : h.unit < target) :
    adjust_unit_to target (fuel + 1) h = adjust_unit_to target fuel (hist_adjust_unit h) := by
  rw [adjust_unit_to, if_pos hc]

theorem tinyhist_combine_maxvalue (dst src : tinyhist_t) :
    hist_maxvalue (tinyhist_combine dst src)
      = max (hist_maxvalue dst) (hist_maxvalue src) := by
  have hmono : ∀ a b : Nat, a ≤ b → 2 ^ a * 2 ^ 15 ≤ 2 ^ b * 2 ^ 15 :=
    fun a b hab => Nat.mul_le_mul_right _ (Nat.pow_le_pow_right (by decide) hab)
  rw [hist_maxvalue, hist_maxvalue, hist_maxvalue, tinyhist_combine_unit]
  rcases le_total dst.unit src.unit with hle | hle
  · rw [max_eq_right hle, max_eq_right (hmono _ _ hle)]
  · rw [max_eq_left hle, max_eq_left (hmono _ _ hle)]

/-- The full pipeline of `tinyhist_combine` on the concrete pair used in the
merge-overflow analysis: `dst` has buckets 0 and 1 holding 200 and 100 counts,
`src` is the one-observation histogram of value 65536 (so `unit = 1`).  The
sample phase is the identity, the unit phase applies `hist_adjust_unit` to
`dst` (whose first write is `bucket_set(dst, 0, 300)` with `300 ≥ 2^8`), and
the merged histogram records 44 = 300 mod 256 counts in bucket 0. -/
theorem combine_300 (dst : tinyhist_t)
    (hs : dst.sample = 0) (hu : dst.unit = 0)
    (h0 : bucket_get dst 0 = 200) (h1 : bucket_get dst 1 = 100)
    (hrest : ∀ j, 2 ≤ j → j < 16 → bucket_get dst j = 0) :
    combine_sample_phase (dst, bucket_set (hist_adjust_unit zero_hist) 15 1)
        = (dst, bucket_set (hist_adjust_unit zero_hist) 15 1)
    ∧ bucket_get (tinyhist_combine dst (bucket_set (hist_adjust_unit zero_hist) 15 1)) 0
        = 44 := by
  obtain ⟨hss, hsu, hs15, hsrest⟩ := src_facts
  obtain ⟨hd0, hdmid, hd15⟩ := hist_adjust_unit_get dst
  have hd0v : bucket_get (hist_adjust_unit dst) 0 = 44 := by
    rw [hd0, h0, h1]
    rfl
  have hsphase : combine_sample_phase (dst, bucket_set (hist_adjust_unit zero_hist) 15 1)
      = (dst, bucket_set (hist_adjust_unit zero_hist) 15 1) := by
    simp only [combine_sample_phase, hss, hs, Nat.max_self]
    rw [adjust_sample_to_noop' 0 16 dst (by omega) (by omega),
      adjust_sample_to_noop' 0 16 _ (by omega) (by rw [hss]; omega)]
  have huphase : combine_unit_phase (dst, bucket_set (hist_adjust_unit zero_hist) 15 1)
      = (hist_adjust_unit dst, bucket_set (hist_adjust_unit zero_hist) 15 1) := by
    simp only [combine_unit_phase, hsu, hu, Nat.max_zero]
    have hstep := adjust_unit_to_step 1 15 dst (by omega)
    rw [hstep, adjust_unit_to_noop' 1 15 _ (by omega)
        (by rw [hist_adjust_unit_unit, hu]; omega),
      adjust_unit_to_noop' 1 16 _ (by omega) (by rw [hsu]; omega)]
  have hcond : ((List.range 16).any fun i =>
      decide (bucket_get (bucket_set (hist_adjust_unit zero_hist) 15 1) i
        + bucket_get (hist_adjust_unit dst) i > bucket_maxcount i)) = false := by
    rw [List.any_eq_false]
    intro i hi
    have hi16 : i < 16 := List.mem_range.mp hi
    simp only [decide_eq_true_eq, not_lt]
    have hsrcb : bucket_get (bucket_set (hist_adjust_unit zero_hist) 15 1) i ≤ 1 := by
      rcases Nat.lt_or_ge i 15 with hlt | hge
      · rw [hsrest i hlt]
        omega
      · have : i = 15 := by omega
        subst this
        rw [hs15]
    have hdstb : bucket_get (hist_adjust_unit dst) i ≤ 44 := by
      rcases Nat.lt_or_ge i 1 with hlt | hge
      · have : i = 0 := by omega
        subst this
        rw [hd0v]
      · rcases Nat.lt_or_ge i 15 with hlt15 | hge15
        · rw [hdmid i (by omega) (by omega), hrest (i + 1) (by omega) (by omega)]
          simp
        · have : i = 15 := by omega
          subst this
          rw [hd15]
          omega
    have hm := bucket_maxcount_ge i hi16
    omega
  have hophase : combine_overflow_phase
      (hist_adjust_unit dst, bucket_set (hist_adjust_unit zero_hist) 15 1)
      = (hist_adjust_unit dst, bucket_set (hist_adjust_unit zero_hist) 15 1) := by
    simp only [combine_overflow_phase]
    rw [hcond]
    simp
  refine ⟨hsphase, ?_⟩
  rw [tinyhist_combine, hsphase, huphase, hophase,
    combine_merge_phase_get _ (by omega)]
  show (bucket_get (bucket_set (hist_adjust_unit zero_hist) 15 1) 0
    + bucket_get (hist_adjust_unit dst) 0) % 2 ^ bucket_bits 0 = 44
  rw [hsrest 0 (by omega), hd0v]
  decide

/-! Lemmas about the binary wire format. -/

theorem foldl_sendbyte (f : Nat → Nat) :
    ∀ (l : List Nat) (init : List Nat),
      l.foldl (fun buf i => pq_sendbyte buf (f i)) init
        = init ++ l.map (fun i => f i % 256)
  | [], init => by simp
  | i :: l, init => by
      rw [List.foldl_cons, foldl_sendbyte f l, List.map_cons, pq_sendbyte]
      simp

theorem tinyhist_send_eq (h : tinyhist_t) :
    tinyhist_send h
      = h.sample % 256 :: (List.range 16).map (fun i => bucket_get h i % 256) := by
  rw [tinyhist_send, foldl_sendbyte (bucket_get h) (List.range 16) (pq_sendbyte [] h.sample)]
  rfl

theorem tinyhist_recv_unit (bytes : List Nat) : (tinyhist_recv bytes).unit = 0 := by
  rw [tinyhist_recv, foldl_set_unit]

/-! Claim theorems. -/

/-- Claim C1 (code bug): the spec says parsing the rendering of any valid
histogram succeeds and parsing fails exactly when the field count differs
from 18; but `tinyhist_in` compares the `sscanf` result against 32 while its
format holds only 18 conversions, so at most 18 fields can match and parsing
fails for every input, including the 18-field output of `tinyhist_out`. -/
theorem C1_parse_always_fails :
    (∀ fields : List Nat, tinyhist_in fields = none)
    ∧ ∀ h : tinyhist_t, (tinyhist_out h).length = 18
        ∧ tinyhist_in (tinyhist_out h) = none := by
  have hfail : ∀ fields : List Nat, tinyhist_in fields = none := by
    intro fields
    rw [tinyhist_in, if_neg]
    rw [sscanf_matched]
    have := Nat.min_le_right fields.length 18
    omega
  refine ⟨hfail, fun h => ⟨?_, hfail _⟩⟩
  rw [tinyhist_out]
  simp

/-- Claim C4 (code bug): the spec says every operation terminates with at most
~16 escalations, but for any value above `2^30` the outer loop of
`hist_adjust_range` never exits: `unit` is a 4-bit field, so `hist_maxvalue`
is at most `2^30` forever (the field wraps mod 16), and no amount of fuel
makes the loop produce a result for value `2^31`. -/
theorem C4_adjust_range_diverges :
    (∀ (fuel : Nat) (h : tinyhist_t), adjust_range_fuel fuel h (2 ^ 31) = none)
    ∧ ∀ h : tinyhist_t, hist_adjust_range h (2 ^ 31) = none := by
  have hmain : ∀ (fuel : Nat) (h : tinyhist_t), adjust_range_fuel fuel h (2 ^ 31) = none :=
    adjust_range_none (by norm_num)
  exact ⟨hmain, fun h => hmain 16 h⟩

/-- Claim C6 (confirmed): `tinyhist_combine` equalizes the sample rates
entirely before the unit exponents (the pipeline identity), and the merged
histogram's `unit` is the max of the inputs' units, so its `hist_maxvalue`
is the max of the two inputs' max values. -/
theorem C6_merge_order_and_maxvalue (dst src : tinyhist_t) :
    tinyhist_combine dst src
        = combine_merge_phase (combine_overflow_phase
            (combine_unit_phase (combine_sample_phase (dst, src))))
    ∧ (tinyhist_combine dst src).unit = max dst.unit src.unit
    ∧ hist_maxvalue (tinyhist_combine dst src)
        = max (hist_maxvalue dst) (hist_maxvalue src) :=
  ⟨rfl, tinyhist_combine_unit dst src, tinyhist_combine_maxvalue dst src⟩

/-- Claim C7 counterexample: at `sample = 15` the 4-bit field wraps, so
`escalate_sample` does not increase `sample_exp` by exactly 1. -/
theorem C7_sample_wraps :
    (hist_adjust_sample { zero_hist with sample := 15, sample_lt := Nat.le.refl }).sample
      ≠ { zero_hist with sample := 15, sample_lt := Nat.le.refl }.sample + 1 := by
  rw [hist_adjust_sample_sample]
  decide

/-- Claim C7 (amended): after `escalate_sample` every bucket holds the floor
half of its previous count, and `sample_exp` becomes `(sample_exp + 1) mod 16`
— an increase by exactly 1 whenever `sample_exp < 15`, a wrap to 0 at 15. -/
theorem C7_escalate_sample_amended (h : tinyhist_t) :
    (∀ i, i < 16 → bucket_get (hist_adjust_sample h) i = bucket_get h i / 2)
    ∧ (hist_adjust_sample h).sample = (h.sample + 1) % 16
    ∧ (h.sample < 15 → (hist_adjust_sample h).sample = h.sample + 1) := by
  refine ⟨fun i hi => hist_adjust_sample_get h hi, hist_adjust_sample_sample h, fun hlt => ?_⟩
  rw [hist_adjust_sample_sample, Nat.mod_eq_of_lt (by omega)]

/-- Witness for C7: at the zero histogram the halving equation for bucket 0
and the exact `+1` hold. -/
theorem C7_escalate_sample_amended_witness :
    ((0 : Nat) < 16
      ∧ bucket_get (hist_adjust_sample zero_hist) 0 = bucket_get zero_hist 0 / 2)
    ∧ zero_hist.sample < 15
      ∧ (hist_adjust_sample zero_hist).sample = zero_hist.sample + 1 :=
  ⟨⟨by decide, (C7_escalate_sample_amended zero_hist).1 0 (by decide)⟩,
    by decide, (C7_escalate_sample_amended zero_hist).2.2 (by decide)⟩

/-- Claim C9 (confirmed): the wire message is exactly 17 bytes, the `sample`
byte followed by the low 8 bits of each bucket's decoded count in index
order; `unit` is not transmitted and receiving yields `unit = 0`. -/
theorem C9_wire_format (h : tinyhist_t) :
    tinyhist_send h = h.sample :: (List.range 16).map (fun i => bucket_get h i % 256)
    ∧ (tinyhist_send h).length = 17
    ∧ (tinyhist_recv (tinyhist_send h)).unit = 0 := by
  have hsend := tinyhist_send_eq h
  have hs : h.sample % 256 = h.sample :=
    Nat.mod_eq_of_lt (lt_of_lt_of_le h.sample_lt (by omega))
  refine ⟨by rw [hsend, hs], ?_, tinyhist_recv_unit _⟩
  rw [hsend]
  simp

set_option maxRecDepth 8000 in
/-- Claim C10 (confirmed): `bucket_set` touches only bucket `i`'s bits — every
other bucket reads the same value afterwards; the 16 (offset, width) ranges
are pairwise disjoint and exactly tile the 248-bit data region. -/
theorem C10_bitfield_frame :
    (∀ i, i < 16 → ∀ j, j < 16 → j ≠ i → ∀ (h : tinyhist_t) (v : Nat),
        v < 2 ^ bucket_bits i → bucket_get (bucket_set h i v) j = bucket_get h j)
    ∧ (∀ i, i < 16 → ∀ j, j < 16 → i ≠ j →
        bucket_offset i + bucket_bits i ≤ bucket_offset j
          ∨ bucket_offset j + bucket_bits j ≤ bucket_offset i)
    ∧ (∀ k, k < 248 → ∃ i, i < 16
        ∧ bucket_offset i ≤ k ∧ k < bucket_offset i + bucket_bits i) := by
  refine ⟨fun i hi j hj hne h v _ => bucket_get_set_ne h hi hj hne v, bucket_disjoint, ?_⟩
  decide

/-- Witness for C10: setting bucket 0 leaves bucket 1 unchanged on the zero
histogram. -/
theorem C10_bitfield_frame_witness :
    ((0 : Nat) < 16 ∧ (1 : Nat) < 16 ∧ (1 : Nat) ≠ 0 ∧ (3 : Nat) < 2 ^ bucket_bits 0)
    ∧ bucket_get (bucket_set zero_hist 0 3) 1 = bucket_get zero_hist 1 :=
  ⟨⟨by decide, by decide, by decide, by decide⟩,
    C10_bitfield_frame.1 0 (by decide) 1 (by decide) (by decide) zero_hist 3 (by decide)⟩

/-- Claim C3 counterexample: a histogram with `sample = 15` and bucket 0 full
(buildable by `tinyhist_recv` from the 17-byte message `15, 255, 0, ..., 0`)
loses sample precision irreversibly the wrong way: `ensure_range` for value
`2^16` escalates the sample once and the 4-bit field wraps from 15 to 0, so
`sample_exp` decreases across the operation. -/
theorem C3_sample_exp_decreases :
    (tinyhist_recv (15 :: 255 :: List.replicate 15 0)).sample = 15
    ∧ ((hist_adjust_range (tinyhist_recv (15 :: 255 :: List.replicate 15 0)) 65536).map
        tinyhist_t.sample) = some 0 :=
  ⟨by decide, by decide⟩

/-- Claim C3 (amended): for any value at most `2^30`, `ensure_range` returns
with `max_value ≥ value` and never decreases `unit_exp`; each escalation
advances its 4-bit exponent by `+1 mod 16`, which is a strict increase exactly
while the exponent is below 15 (at 15 it wraps to 0). -/
theorem C3_ensure_range_amended :
    (∀ (h : tinyhist_t) (value : Nat), value ≤ 2 ^ 30 →
      ∃ h', hist_adjust_range h value = some h'
        ∧ value ≤ hist_maxvalue h' ∧ h.unit ≤ h'.unit)
    ∧ (∀ h : tinyhist_t, (hist_adjust_sample h).sample = (h.sample + 1) % 16
        ∧ (h.sample < 15 → (hist_adjust_sample h).sample = h.sample + 1))
    ∧ (∀ h : tinyhist_t, (hist_adjust_unit h).unit = (h.unit + 1) % 16
        ∧ (h.unit < 15 → (hist_adjust_unit h).unit = h.unit + 1)) := by
  refine ⟨fun h value hv => adjust_range_some 16 h value hv (by omega), fun h => ?_, fun h => ?_⟩
  · exact ⟨hist_adjust_sample_sample h,
      fun hlt => by rw [hist_adjust_sample_sample, Nat.mod_eq_of_lt (by omega)]⟩
  · exact ⟨hist_adjust_unit_unit h, fun hlt => hist_adjust_unit_unit_of_lt hlt⟩

/-- Witness for C3: growing the zero histogram to cover `2^16` succeeds. -/
theorem C3_ensure_range_amended_witness :
    (65536 : Nat) ≤ 2 ^ 30
    ∧ ∃ h', hist_adjust_range zero_hist 65536 = some h'
        ∧ 65536 ≤ hist_maxvalue h' ∧ zero_hist.unit ≤ h'.unit :=
  ⟨by norm_num, C3_ensure_range_amended.1 zero_hist 65536 (by norm_num)⟩

theorem bucketLower_succ (h : tinyhist_t) (k : Nat) :
    bucketLower h (k + 1) = 2 ^ h.unit * 2 ^ k := by
  show bucketUpper h (k + 1) / 2 = 2 ^ h.unit * 2 ^ k
  rw [bucketUpper, pow_succ, ← Nat.mul_assoc, Nat.mul_div_cancel _ (by decide)]

/-- Claim C5 counterexample: the spec's half-open interval `[lower_i, upper_i)`
contradicts the code at the dyadic boundaries: value 2 is the upper bound of
bucket 1 on the zero histogram, so under the spec's intervals it belongs to
bucket 2, yet `bucket_index` puts it in bucket 1 (its intervals are open on
the left and closed on the right). -/
theorem C5_interval_boundary :
    bucket_index zero_hist 2 = 1
    ∧ ¬(bucketLower zero_hist 1 ≤ 2 ∧ 2 < bucketUpper zero_hist 1)
    ∧ (bucketLower zero_hist 2 ≤ 2 ∧ 2 < bucketUpper zero_hist 2) := by
  refine ⟨?_, by decide, by decide⟩
  refine bucket_index_eq zero_hist (by decide) (fun j hj => ?_)
  have hj0 : j = 0 := by omega
  subst hj0
  decide

/-- Claim C5 (amended): for `0 < value ≤ max_value`, `bucket_index` returns
the smallest `i` with `2^i * 2^unit_exp ≥ value`, which is the unique `i < 16`
whose interval contains `value` when the intervals are taken half-open on the
left: `lower_i < value ≤ upper_i`. -/
theorem C5_bucket_index_amended (h : tinyhist_t) (value : Nat)
    (hpos : 0 < value) (hle : value ≤ hist_maxvalue h) :
    bucket_index h value < 16
    ∧ bucketLower h (bucket_index h value) < value
    ∧ value ≤ bucketUpper h (bucket_index h value)
    ∧ (∀ j, j < 16 → bucketLower h j < value → value ≤ bucketUpper h j →
        j = bucket_index h value)
    ∧ ∀ j, value ≤ bucketUpper h j → bucket_index h value ≤ j := by
  have hge := bucket_index_ge h value
  have hupper : value ≤ bucketUpper h (bucket_index h value) := by
    rw [bucketUpper, Nat.mul_comm]
    exact hge
  have hsmall : ∀ j, value ≤ bucketUpper h j → bucket_index h value ≤ j := by
    intro j hj
    by_contra hgt
    have hmin := bucket_index_min h value (j := j) (by omega)
    rw [bucketUpper, Nat.mul_comm] at hj
    omega
  have hlower : bucketLower h (bucket_index h value) < value := by
    rcases hidx : bucket_index h value with _ | k
    · simpa [bucketLower] using hpos
    · have hmin := bucket_index_min h value (j := k) (by omega)
      rw [bucketLower_succ, Nat.mul_comm]
      exact hmin
  refine ⟨bucket_index_lt_16 h hle, hlower, hupper, ?_, hsmall⟩
  intro j hj16 hjlow hjup
  by_contra hne
  rcases Nat.lt_or_ge j (bucket_index h value) with hlt | hge2
  · have hmin := bucket_index_min h value hlt
    rw [bucketUpper, Nat.mul_comm] at hjup
    omega
  · have hij : bucket_index h value < j := by omega
    rcases j with _ | m
    · omega
    · have hpowle : (2 : Nat) ^ bucket_index h value ≤ 2 ^ m :=
        Nat.pow_le_pow_right (by decide) (by omega)
      rw [bucketLower_succ] at hjlow
      have hmul : (2 : Nat) ^ bucket_index h value * 2 ^ h.unit
          ≤ 2 ^ m * 2 ^ h.unit := Nat.mul_le_mul_right _ hpowle
      have hcomm : (2 : Nat) ^ m * 2 ^ h.unit = 2 ^ h.unit * 2 ^ m := Nat.mul_comm _ _
      omega

/-- Witness for C5: value 5 on the zero histogram goes into bucket 3. -/
theorem C5_bucket_index_amended_witness :
    ((0 : Nat) < 5 ∧ (5 : Nat) ≤ hist_maxvalue zero_hist)
    ∧ (bucket_index zero_hist 5 < 16
      ∧ bucketLower zero_hist (bucket_index zero_hist 5) < 5
      ∧ 5 ≤ bucketUpper zero_hist (bucket_index zero_hist 5)
      ∧ (∀ j, j < 16 → bucketLower zero_hist j < 5 → 5 ≤ bucketUpper zero_hist j →
          j = bucket_index zero_hist 5)
      ∧ ∀ j, 5 ≤ bucketUpper zero_hist j → bucket_index zero_hist 5 ≤ j) :=
  ⟨⟨by decide, by decide⟩, C5_bucket_index_amended zero_hist 5 (by decide) (by decide)⟩

/-- Claim C8 counterexample: with `unit = 15` and buckets 0 and 1 holding 255
and 1 counts, `escalate_unit` stores `(255 + 1) mod 256 = 0` into bucket 0
(the merged count does not fit into 8 bits) and the 4-bit `unit` field wraps
to 0 instead of increasing by 1. -/
theorem C8_unit_wraps :
    bucket_get (hist_adjust_unit (bucket_set (bucket_set
          { zero_hist with unit := 15, unit_lt := Nat.le.refl } 0 255) 1 1)) 0
        ≠ bucket_get (bucket_set (bucket_set
            { zero_hist with unit := 15, unit_lt := Nat.le.refl } 0 255) 1 1) 0
          + bucket_get (bucket_set (bucket_set
            { zero_hist with unit := 15, unit_lt := Nat.le.refl } 0 255) 1 1) 1
    ∧ (hist_adjust_unit (bucket_set (bucket_set
          { zero_hist with unit := 15, unit_lt := Nat.le.refl } 0 255) 1 1)).unit
        ≠ (bucket_set (bucket_set
            { zero_hist with unit := 15, unit_lt := Nat.le.refl } 0 255) 1 1).unit + 1 :=
  ⟨by decide, by decide⟩

/-- Claim C8 (amended): after `escalate_unit`, bucket 0 holds
`(old b0 + old b1) mod 2^8`, bucket `i` (for `i = 1..14`) holds
`old b(i+1) mod 2^width[i]` (the stores truncate to the slot width), bucket 15
is 0, and `unit_exp` becomes `(unit_exp + 1) mod 16` — an increase by exactly
1 whenever `unit_exp < 15`. -/
theorem C8_escalate_unit_amended (h : tinyhist_t) :
    bucket_get (hist_adjust_unit h) 0
        = (bucket_get h 0 + bucket_get h 1) % 2 ^ bucket_bits 0
    ∧ (∀ i, 1 ≤ i → i ≤ 14 →
        bucket_get (hist_adjust_unit h) i = bucket_get h (i + 1) % 2 ^ bucket_bits i)
    ∧ bucket_get (hist_adjust_unit h) 15 = 0
    ∧ (hist_adjust_unit h).unit = (h.unit + 1) % 16
    ∧ (h.unit < 15 → (hist_adjust_unit h).unit = h.unit + 1) := by
  obtain ⟨h0, hmid, h15⟩ := hist_adjust_unit_get h
  exact ⟨h0, hmid, h15, hist_adjust_unit_unit h, fun hlt => hist_adjust_unit_unit_of_lt hlt⟩

/-- Witness for C8: on the zero histogram the shift equation for bucket 3 and
the exact `+1` on `unit` hold. -/
theorem C8_escalate_unit_amended_witness :
    ((1 : Nat) ≤ 3 ∧ (3 : Nat) ≤ 14
      ∧ bucket_get (hist_adjust_unit zero_hist) 3
          = bucket_get zero_hist 4 % 2 ^ bucket_bits 3)
    ∧ zero_hist.unit < 15
      ∧ (hist_adjust_unit zero_hist).unit = zero_hist.unit + 1 :=
  ⟨⟨by decide, by decide,
      (C8_escalate_unit_amended zero_hist).2.1 3 (by decide) (by decide)⟩,
    by decide, (C8_escalate_unit_amended zero_hist).2.2.2.2 (by decide)⟩

/-- Claim C2 (code bug): from the zero state, 200 accumulations of value 1 and
100 of value 2 build a reachable `dst` with `b0 = 200`, `b1 = 100`; one
accumulation of 65536 builds a reachable `src` with `unit = 1`.  Merging them
equalizes samples (a no-op) and then unit-equalizes `dst` with no overflow
guard: `hist_adjust_unit` is applied to a state whose first write is
`bucket_set(dst, 0, 300)` with `300 ≥ 2^8 = 2^width[0]`, violating
`bucket_set`'s capacity precondition (`Assert(count < (0x1 << nbits))`); the
stored count silently truncates to `300 mod 256 = 44` in the merged result. -/
theorem C2_merge_unit_equalization_overcapacity :
    ∃ dst src : tinyhist_t, Reachable dst ∧ Reachable src
      ∧ (combine_sample_phase (dst, src)).1.unit
          < max (combine_sample_phase (dst, src)).2.unit
              (combine_sample_phase (dst, src)).1.unit
      ∧ bucket_get (combine_sample_phase (dst, src)).1 0
          + bucket_get (combine_sample_phase (dst, src)).1 1 = 300
      ∧ 2 ^ bucket_bits 0 ≤ 300
      ∧ bucket_get (tinyhist_combine dst src) 0 = 44 := by
  obtain ⟨h200, he200, hs200, hu200, hb200, hr200⟩ :=
    addN_ones 200 zero_hist 0 rfl rfl (zero_hist_get 0)
      (fun j _ _ => zero_hist_get j) (by omega)
  obtain ⟨dst, heD, hsD, huD, hb0D, hb1D, hrD⟩ :=
    addN_twos 100 h200 200 0 hs200 hu200 (by omega) (hr200 1 (by omega) (by omega))
      (fun j h2 h16 => hr200 j (by omega) h16) (by omega)
  have hRdst : Reachable dst :=
    Reachable_addN 2 100 h200 dst
      (Reachable_addN 1 200 zero_hist h200 Reachable.zero he200) heD
  have hRsrc : Reachable (bucket_set (hist_adjust_unit zero_hist) 15 1) :=
    Reachable.add true 65536 Reachable.zero add_src
  obtain ⟨hsphase, h44⟩ := combine_300 dst hsD huD (by omega) (by omega) hrD
  refine ⟨dst, bucket_set (hist_adjust_unit zero_hist) 15 1,
    hRdst, hRsrc, ?_, ?_, by decide, h44⟩
  · rw [hsphase]
    show dst.unit < max (bucket_set (hist_adjust_unit zero_hist) 15 1).unit dst.unit
    obtain ⟨-, hsu, -, -⟩ := src_facts
    rw [huD, hsu]
    decide
  · rw [hsphase]
    show bucket_get dst 0 + bucket_get dst 1 = 300
    omega
